import Mathlib

/-!
Verification of the Sun Ray authentication-server protocol codec
(`src/auth.rs`, `src/main.rs`): a shallow embedding of the message model,
the line-oriented frame decoder/encoder (`AuthCodec`), and the pipelined
session, together with theorems about framing, parsing and encoding.

Byte buffers (`bytes::BytesMut`) are modelled as `List Nat` (one entry per
byte); Rust strings are modelled as Lean `String`/`List Char`, connected to
byte buffers by an explicit UTF-8 encoder/decoder that performs the same
validation as `str::from_utf8`.  A Rust panic (the `expect` calls on integer
parses) is modelled as the distinguished outcome `aborted`.
-/

set_option maxHeartbeats 1000000

namespace SunRay

/-! ### Characters and strings -/

/-- The Unicode code points with the `White_Space` property; Rust's
`char::is_whitespace` (used by `str::split_whitespace`) tests exactly these. -/
def wsCodes : List Nat :=
  [0x09, 0x0A, 0x0B, 0x0C, 0x0D, 0x20, 0x85, 0xA0, 0x1680,
   0x2000, 0x2001, 0x2002, 0x2003, 0x2004, 0x2005, 0x2006, 0x2007, 0x2008,
   0x2009, 0x200A, 0x2028, 0x2029, 0x202F, 0x205F, 0x3000]

/-- Rust `char::is_whitespace`. -/
def isWs (c : Char) : Bool := decide (c.toNat ∈ wsCodes)

/-- Helper for `splitWs`: `acc` holds the current token, reversed. -/
def splitWsAux : List Char → List Char → List (List Char)
  | [], acc => if acc.isEmpty then [] else [acc.reverse]
  | c :: cs, acc =>
    if isWs c then
      if acc.isEmpty then splitWsAux cs []
      else acc.reverse :: splitWsAux cs []
    else splitWsAux cs (c :: acc)

/-- Rust `str::split_whitespace`: split on runs of whitespace, with no
empty tokens produced. -/
def splitWs (cs : List Char) : List (List Char) := splitWsAux cs []

/-- Rust `str::split(sep)`: the pieces between occurrences of `sep`,
empty pieces kept (`split('=')` on `"a=b=c"` is `["a","b","c"]`, on `"a"`
is `["a"]`, on `""` is `[""]`). -/
def splitSep (sep : Char) : List Char → List (List Char)
  | [] => [[]]
  | c :: cs =>
    if c = sep then [] :: splitSep sep cs
    else
      match splitSep sep cs with
      | [] => [[c]]
      | g :: gs => (c :: g) :: gs

/-! ### Integer parsing and formatting -/

/-- Decimal digit value of a character, Rust `char::to_digit(10)`. -/
def digitVal (c : Char) : Option Nat :=
  if '0' ≤ c ∧ c ≤ '9' then some (c.toNat - '0'.toNat) else none

/-- Hexadecimal digit value of a character, Rust `char::to_digit(16)`. -/
def hexDigitVal (c : Char) : Option Nat :=
  if '0' ≤ c ∧ c ≤ '9' then some (c.toNat - '0'.toNat)
  else if 'a' ≤ c ∧ c ≤ 'f' then some (c.toNat - 'a'.toNat + 10)
  else if 'A' ≤ c ∧ c ≤ 'F' then some (c.toNat - 'A'.toNat + 10)
  else none

/-- Accumulate digits left to right in the given base; `none` on the first
non-digit character. -/
def parseDigitsAcc (dv : Char → Option Nat) (base : Nat) :
    List Char → Nat → Option Nat
  | [], acc => some acc
  | c :: cs, acc =>
    match dv c with
    | some d => parseDigitsAcc dv base cs (acc * base + d)
    | none => none

/-- Rust `uN::from_str` / `uN::from_str_radix`: an optional leading `+`,
then one or more digits in the given base; the value must fit in `width`
bits (Rust reports overflow as an error; accepting exactly the strings whose
value is `< 2 ^ width` is equivalent). -/
def parseUInt (dv : Char → Option Nat) (base width : Nat) (s : List Char) :
    Option Nat :=
  let digits := if s.head? = some '+' then s.tail else s
  if digits.isEmpty then none
  else
    match parseDigitsAcc dv base digits 0 with
    | some v => if v < 2 ^ width then some v else none
    | none => none

/-- Rust `value.parse::<u32>()`. -/
def parseU32 (s : List Char) : Option Nat := parseUInt digitVal 10 32 s

/-- Rust `value.parse::<u64>()`. -/
def parseU64 (s : List Char) : Option Nat := parseUInt digitVal 10 64 s

/-- Rust `u32::from_str_radix(value, 16)`. -/
def parseHexU32 (s : List Char) : Option Nat := parseUInt hexDigitVal 16 32 s

/-- Helper for `natDigitsRev`: structural recursion on a fuel argument so
that the definition reduces by iota (any fuel at least `n` gives the same
digits, since `n / 10 < n` for positive `n`). -/
def natDigitsRevAux : Nat → Nat → List Char
  | 0, _ => []
  | _, 0 => []
  | fuel + 1, n + 1 =>
    Char.ofNat ((n + 1) % 10 + '0'.toNat) :: natDigitsRevAux fuel ((n + 1) / 10)

/-- The decimal digits of `n`, least significant first (empty for `0`). -/
def natDigitsRev (n : Nat) : List Char := natDigitsRevAux n n

/-- Rust `format!("{}", n)` for an unsigned integer: plain decimal. -/
def natToString (n : Nat) : String :=
  if n = 0 then "0" else ⟨(natDigitsRev n).reverse⟩

/-! ### UTF-8 -/

/-- UTF-8 encoding of one character (`str::as_bytes` at the level of a
single `char`). -/
def utf8EncodeChar (c : Char) : List Nat :=
  if c.toNat < 0x80 then [c.toNat]
  else if c.toNat < 0x800 then [0xC0 + c.toNat / 64, 0x80 + c.toNat % 64]
  else if c.toNat < 0x10000 then
    [0xE0 + c.toNat / 4096, 0x80 + c.toNat / 64 % 64, 0x80 + c.toNat % 64]
  else
    [0xF0 + c.toNat / 262144, 0x80 + c.toNat / 4096 % 64, 0x80 + c.toNat / 64 % 64,
     0x80 + c.toNat % 64]

/-- Rust `String::as_bytes` / `str::as_bytes`: the UTF-8 bytes of a string. -/
def strToBytes (s : String) : List Nat := (s.data.map utf8EncodeChar).flatten

/-- One step of UTF-8 decoding: decode the character whose lead byte is
`b0` and whose continuation bytes start `rest`, returning the character and
the remaining bytes; `none` exactly when Rust `str::from_utf8` rejects the
sequence here (truncation, stray or missing continuation bytes, overlong
forms, surrogates, code points above `0x10FFFF`). -/
def utf8DecodeOneChar (b0 : Nat) (rest : List Nat) : Option (Char × List Nat) :=
  if b0 < 0x80 then some (Char.ofNat b0, rest)
  else if b0 < 0xC2 then none
  else if b0 < 0xE0 then
    match rest with
    | b1 :: rest2 =>
      if 0x80 ≤ b1 ∧ b1 < 0xC0 then
        some (Char.ofNat ((b0 - 0xC0) * 64 + (b1 - 0x80)), rest2)
      else none
    | [] => none
  else if b0 < 0xF0 then
    match rest with
    | b1 :: b2 :: rest2 =>
      if (if b0 = 0xE0 then 0xA0 else 0x80) ≤ b1 ∧
          b1 < (if b0 = 0xED then 0xA0 else 0xC0) ∧
          0x80 ≤ b2 ∧ b2 < 0xC0 then
        some (Char.ofNat ((b0 - 0xE0) * 4096 + (b1 - 0x80) * 64 + (b2 - 0x80)), rest2)
      else none
    | _ => none
  else if b0 < 0xF5 then
    match rest with
    | b1 :: b2 :: b3 :: rest2 =>
      if (if b0 = 0xF0 then 0x90 else 0x80) ≤ b1 ∧
          b1 < (if b0 = 0xF4 then 0x90 else 0xC0) ∧
          0x80 ≤ b2 ∧ b2 < 0xC0 ∧ 0x80 ≤ b3 ∧ b3 < 0xC0 then
        some
          (Char.ofNat
            ((b0 - 0xF0) * 262144 + (b1 - 0x80) * 4096 + (b2 - 0x80) * 64 + (b3 - 0x80)),
            rest2)
      else none
    | _ => none
  else none

/-- Helper for `utf8Decode`: structural recursion on a fuel argument (each
decoded character consumes at least one byte, so fuel equal to the byte
count suffices and the result is then fuel-independent). -/
def utf8DecodeAux : Nat → List Nat → Option (List Char)
  | _, [] => some []
  | 0, _ :: _ => none
  | fuel + 1, b0 :: rest =>
    match utf8DecodeOneChar b0 rest with
    | some (c, rest2) => (utf8DecodeAux fuel rest2).map (c :: ·)
    | none => none

/-- Rust `str::from_utf8`: decode a byte sequence as UTF-8, `none` exactly on
ill-formed input. -/
def utf8Decode (bs : List Nat) : Option (List Char) := utf8DecodeAux bs.length bs

/-! ### The message model (`auth.rs`) -/

/-- `enum AuthMessageType`. -/
inductive AuthMessageType where
  | InfoReq
  | KeepAliveReq
  | KeepAliveCnf
  | DiscInf
  | DiscRsp
  | ConnInf
  | ConnRsp
  | Unknown
  | Empty
deriving DecidableEq, Repr

/-- `impl Display for AuthMessageType` (the wire string written by the
encoder). -/
def AuthMessageType.display : AuthMessageType → String
  | .InfoReq => "infoReq"
  | .KeepAliveReq => "keepAliveReq"
  | .KeepAliveCnf => "keepAliveCnf"
  | .DiscInf => "discInf"
  | .DiscRsp => "discRsp"
  | .ConnInf => "connInf"
  | .ConnRsp => "connRsp"
  | .Empty => "empty"
  | .Unknown => "unknown"

/-- `impl From<&str> for AuthMessageType` (the tag table used by the
decoder; anything unrecognized maps to `Unknown`). -/
def AuthMessageType.fromStr : String → AuthMessageType
  | "infoReq" => .InfoReq
  | "keepAliveReq" => .KeepAliveReq
  | "keepAliveCnf" => .KeepAliveCnf
  | "discInf" => .DiscInf
  | "discRsp" => .DiscRsp
  | "connInf" => .ConnInf
  | "connRsp" => .ConnRsp
  | _ => .Unknown

/-- `struct Ipv4Addr` octets. -/
structure Ipv4Addr where
  o1 : Nat
  o2 : Nat
  o3 : Nat
  o4 : Nat
deriving DecidableEq, Repr

/-- Rust `Ipv4Addr::from(u32)`: the four octets of the 32-bit value in
big-endian (network) byte order. -/
def Ipv4Addr.fromU32 (v : Nat) : Ipv4Addr :=
  ⟨v / 16777216 % 256, v / 65536 % 256, v / 256 % 256, v % 256⟩

/-- `enum IpAddr` as used here (the code only ever builds `IpAddr::V4`). -/
inductive IpAddr where
  | v4 (addr : Ipv4Addr)
deriving DecidableEq, Repr

/-- `struct AuthMessage`: one message type plus optional named fields.
Unsigned integers are modelled as `Nat` (the parsers enforce the 32/64-bit
bounds exactly where Rust does). -/
structure AuthMessage where
  message_type : AuthMessageType := .Empty
  mtu : Option Nat := none
  barrier_level : Option Nat := none
  cause : Option String := none
  client_rand : Option String := none
  ddc_config : Option Nat := none
  event : Option String := none
  first_server : Option IpAddr := none
  fw : Option String := none
  hw : Option String := none
  id : Option String := none
  init_state : Option Nat := none
  key_types : Option (List String) := none
  namespace_ : Option String := none
  pn : Option Nat := none
  real_ip : Option IpAddr := none
  sn : Option String := none
  state : Option String := none
  token_seq : Option Nat := none
  type_ : Option String := none
  access : Option String := none
deriving DecidableEq, Repr

/-- `AuthMessage::default()`: type `Empty`, every field unset. -/
def AuthMessage.default : AuthMessage := {}

/-- Outcome of applying one `key=value` assignment to a message: either the
updated message, or a Rust panic (`expect` on a failed integer parse),
modelled as `aborted`. -/
inductive FieldResult where
  | ok (m : AuthMessage)
  | aborted (e : String)
deriving DecidableEq, Repr

/-- The `match key { ... }` arms of `AuthCodec::decode`, in source order.
Keys not in the table are ignored (`_ => {}`); note there is no `"access"`
arm. -/
def applyField (out : AuthMessage) (key : String) (value : List Char) :
    FieldResult :=
  match key with
  | "MTU" =>
    match parseU32 value with
    | some v => .ok { out with mtu := some v }
    | none => .aborted "not an integer"
  | "barrierLevel" =>
    match parseU64 value with
    | some v => .ok { out with barrier_level := some v }
    | none => .aborted "not an integer"
  | "cause" => .ok { out with cause := some ⟨value⟩ }
  | "clientRand" => .ok { out with client_rand := some ⟨value⟩ }
  | "ddcconfig" =>
    match parseU32 value with
    | some v => .ok { out with ddc_config := some v }
    | none => .aborted "not an integer"
  | "event" => .ok { out with event := some ⟨value⟩ }
  | "firstServer" =>
    match parseHexU32 value with
    | some v => .ok { out with first_server := some (.v4 (Ipv4Addr.fromU32 v)) }
    | none => .aborted "not a hex integer"
  | "fw" => .ok { out with fw := some ⟨value⟩ }
  | "hw" => .ok { out with hw := some ⟨value⟩ }
  | "id" => .ok { out with id := some ⟨value⟩ }
  | "initState" =>
    match parseU32 value with
    | some v => .ok { out with init_state := some v }
    | none => .aborted "not an integer"
  | "keyTypes" =>
    .ok { out with
          key_types := some ((splitSep ',' value).map fun k => (⟨k⟩ : String)) }
  | "namespace" => .ok { out with namespace_ := some ⟨value⟩ }
  | "pn" =>
    match parseU32 value with
    | some v => .ok { out with pn := some v }
    | none => .aborted "not an integer"
  | "realIP" =>
    match parseHexU32 value with
    | some v => .ok { out with real_ip := some (.v4 (Ipv4Addr.fromU32 v)) }
    | none => .aborted "not a hex integer"
  | "sn" => .ok { out with sn := some ⟨value⟩ }
  | "state" => .ok { out with state := some ⟨value⟩ }
  | "tokenSeq" =>
    match parseU32 value with
    | some v => .ok { out with token_seq := some v }
    | none => .aborted "not an integer"
  | "type" => .ok { out with type_ := some ⟨value⟩ }
  | _ => .ok out

/-- Result of one `AuthCodec::decode` call: `incomplete` is Rust's
`Ok(None)` (no full line buffered), `ok` is `Ok(Some(msg))`, `err` is
`Err(io::Error::new(..))`, and `aborted` is a panic from `expect`. -/
inductive DecodeResult where
  | incomplete
  | ok (m : AuthMessage)
  | err (e : String)
  | aborted (e : String)
deriving DecidableEq, Repr

/-- The `for kv_pair_str in split_str { ... }` loop of `AuthCodec::decode`:
each token must split on `=` into exactly two pieces, which are applied to
the message left to right. -/
def processTokens (out : AuthMessage) : List (List Char) → DecodeResult
  | [] => .ok out
  | t :: ts =>
    match splitSep '=' t with
    | [k, v] =>
      match applyField out ⟨k⟩ v with
      | .ok out2 => processTokens out2 ts
      | .aborted e => .aborted e
    | _ => .err "bad key/value pair"

/-- The body of `AuthCodec::decode` applied to one extracted line (the bytes
before the newline): UTF-8 validation, whitespace tokenization, message-type
tag, then the field tokens. -/
def parseLine (line : List Nat) : DecodeResult :=
  match utf8Decode line with
  | none => .err "invalid string"
  | some cs =>
    match splitWs cs with
    | [] => .err "no message type"
    | t :: ts =>
      processTokens
        { AuthMessage.default with message_type := AuthMessageType.fromStr ⟨t⟩ } ts

/-- `AuthCodec::decode` on a buffer: scan for the first `\n` (byte 10); if
none, report incomplete and leave the buffer untouched; otherwise split off
the line and the delimiter (`split_to(i)`, `split_to(1)`) and parse the
line.  Returns the call's outcome together with the buffer's new contents. -/
def AuthCodec.decode (buf : List Nat) : DecodeResult × List Nat :=
  match buf.findIdx? (fun b => b == 10) with
  | none => (.incomplete, buf)
  | some i => (parseLine (buf.take i), buf.drop (i + 1))

/-- `AuthCodec::encode`: nothing for `Empty`; otherwise the display string
of the type, then `" access=<v>"` if set, then `" tokenSeq=<v>"` if set,
then `\n`, appended to the buffer as UTF-8 bytes.  The Rust function
returns `Result<(), io::Error>`; the error type is kept to state that it
never fails. -/
def AuthCodec.encode (msg : AuthMessage) (buf : List Nat) :
    Except String (List Nat) :=
  if msg.message_type = .Empty then .ok buf
  else
    let out := msg.message_type.display
    let out :=
      match msg.access with
      | some access => out ++ " access=" ++ access
      | none => out
    let out :=
      match msg.token_seq with
      | some tokenSeq => out ++ " tokenSeq=" ++ natToString tokenSeq
      | none => out
    .ok (buf ++ strToBytes out ++ [10])

/-- Whether a decode outcome is Rust's `Err(..)` (a fatal decode error
returned as a result). -/
def DecodeResult.isErr : DecodeResult → Bool
  | .err _ => true
  | _ => false

/-- Whether a decode outcome is a Rust panic (process abort from `expect`). -/
def DecodeResult.isAborted : DecodeResult → Bool
  | .aborted _ => true
  | _ => false

/-- Sequencing of decode outcomes: continue from an `ok` message, propagate
anything else. -/
def DecodeResult.andThen (r : DecodeResult) (f : AuthMessage → DecodeResult) :
    DecodeResult :=
  match r with
  | .ok m => f m
  | r => r

/-- The ` access=<value>` portion of an encoded frame, per the spec's
encoder contract (empty when the field is unset). -/
def accessPart (m : AuthMessage) : String :=
  match m.access with
  | some a => " access=" ++ a
  | none => ""

/-- The ` tokenSeq=<value>` portion of an encoded frame, per the spec's
encoder contract (empty when the field is unset). -/
def tokenSeqPart (m : AuthMessage) : String :=
  match m.token_seq with
  | some v => " tokenSeq=" ++ natToString v
  | none => ""

/-- The bytes the session writes for one handler result (`encode` into an
empty buffer; `encode` never fails, so the error arm is dead). -/
def frameBytes (m : AuthMessage) : List Nat :=
  match AuthCodec.encode m [] with
  | .ok bs => bs
  | .error _ => []

/-- Modelled from the spec: the pipelined session driver
(`tokio_proto::pipeline::ServerProto`, external to this repository — the
source only binds `AuthCodec` to it via `AuthProto::bind_transport` and
`main`'s `TcpServer`).  Per §4.5: for each successfully decoded request,
invoke the handler, wait for its single result, and write its one encoded
frame before decoding the next request; stop on incomplete input or a
fatal decode outcome.  `fuel` bounds the number of pipeline turns. -/
def sessionRun (handler : AuthMessage → AuthMessage) :
    Nat → List Nat → List AuthMessage × List Nat
  | 0, _ => ([], [])
  | fuel + 1, inBuf =>
    match AuthCodec.decode inBuf with
    | (.ok m, rest) =>
      match AuthCodec.encode (handler m) [] with
      | .ok outBytes =>
        let step := sessionRun handler fuel rest
        (m :: step.1, outBytes ++ step.2)
      | .error _ => ([], [])
    | _ => ([], [])

/-- The sequence of requests obtainable from a buffer by repeated decode
calls alone (no handler, no encoding), in arrival order. -/
def decodeAll : Nat → List Nat → List AuthMessage
  | 0, _ => []
  | fuel + 1, buf =>
    match AuthCodec.decode buf with
    | (.ok m, rest) => m :: decodeAll fuel rest
    | _ => []

end SunRay

namespace SunRay

theorem findIdx_no_newline {buf : List Nat} (h : ∀ b ∈ buf, b ≠ 10) :
    buf.findIdx? (fun b => b == 10) = none := by
  rw [List.findIdx?_eq_none_iff]
  intro x hx
  simpa using h x hx

theorem decode_eq_incomplete {buf : List Nat} (h : ∀ b ∈ buf, b ≠ 10) :
    AuthCodec.decode buf = (.incomplete, buf) := by
  unfold AuthCodec.decode
  rw [findIdx_no_newline h]

theorem decode_line {line rest : List Nat} (h : ∀ b ∈ line, b ≠ 10) :
    AuthCodec.decode (line ++ 10 :: rest) = (parseLine line, rest) := by
  unfold AuthCodec.decode
  rw [List.findIdx?_append, findIdx_no_newline h, List.findIdx?_cons]
  have h1 : (line ++ 10 :: rest).take line.length = line := List.take_left line _
  have h2 : (line ++ 10 :: rest).drop (line.length + 1) = rest := by
    rw [show line ++ 10 :: rest = (line ++ [10]) ++ rest by simp,
        show line.length + 1 = (line ++ [10]).length by simp]
    exact List.drop_left _ _
  simp only [beq_self_eq_true, if_true, Option.none_or, Option.map_some', Nat.zero_add]
  rw [h1, h2]

theorem processTokens_append (m : AuthMessage) (ts1 ts2 : List (List Char)) :
    processTokens m (ts1 ++ ts2) =
      (processTokens m ts1).andThen fun m2 => processTokens m2 ts2 := by
  induction ts1 generalizing m with
  | nil => simp [processTokens, DecodeResult.andThen]
  | cons t ts ih =>
    simp only [List.cons_append, processTokens]
    cases h : splitSep '=' t with
    | nil => simp [DecodeResult.andThen]
    | cons k gs =>
      cases gs with
      | nil => simp [DecodeResult.andThen]
      | cons v gs2 =>
        cases gs2 with
        | nil =>
          dsimp only
          cases h2 : applyField m ⟨k⟩ v with
          | ok m2 => simpa using ih m2
          | aborted e => simp [DecodeResult.andThen]
        | cons w gs3 => simp [DecodeResult.andThen]

end SunRay

namespace SunRay

/-- C4: a decode call on a buffer containing no newline byte returns
incomplete (no message, no error) and leaves the buffer exactly unchanged,
so repeated calls without new bytes are idempotent on buffer state. -/
theorem decode_no_newline_incomplete (buf : List Nat) (h : ∀ b ∈ buf, b ≠ 10) :
    AuthCodec.decode buf = (.incomplete, buf) := decode_eq_incomplete h

theorem decode_no_newline_incomplete_witness :
    (∀ b ∈ strToBytes "infoReq", b ≠ 10) ∧
      AuthCodec.decode (strToBytes "infoReq") = (.incomplete, strToBytes "infoReq") :=
  ⟨by decide, decode_no_newline_incomplete (strToBytes "infoReq") (by decide)⟩

/-- C2 counterexample: decoding a buffer holding the line
`infoReq MTU=abc\n` does not return a fatal decode error as a result: the
failed integer parse hits `expect`, i.e. a panic (modelled `aborted`), and
the buffer has already advanced past the line (it ends empty, not equal to
the original buffer). -/
theorem decode_bad_int_not_err :
    (AuthCodec.decode (strToBytes "infoReq MTU=abc\n")).1.isErr = false ∧
      (AuthCodec.decode (strToBytes "infoReq MTU=abc\n")).1 = .aborted "not an integer" ∧
      (AuthCodec.decode (strToBytes "infoReq MTU=abc\n")).2 = [] ∧
      strToBytes "infoReq MTU=abc\n" ≠ [] := by decide

/-- C2 (amended): decoding a buffer containing the line `infoReq MTU=abc\n`
aborts via a Rust panic (`expect("not an integer")`) instead of returning a
decode error, and at the abort point the buffer has already advanced past
the offending line and its newline. -/
theorem decode_bad_int_aborts :
    AuthCodec.decode (strToBytes "infoReq MTU=abc\n") = (.aborted "not an integer", []) := by
  decide

/-- C7: with two complete lines buffered at once, the first decode call
returns exactly the first line's message and leaves exactly the second
line in the buffer; the next call returns the second line's message; each
newline delimiter is consumed and appears in neither message, and each call
consumes only its own line. -/
theorem decode_two_lines :
    AuthCodec.decode (strToBytes "keepAliveReq\nconnInf\n") =
      (.ok { AuthMessage.default with message_type := .KeepAliveReq },
        strToBytes "connInf\n") ∧
      AuthCodec.decode (strToBytes "connInf\n") =
        (.ok { AuthMessage.default with message_type := .ConnInf }, []) := by
  decide

/-- C8: field tokens are processed in left-to-right token order (processing
a token list is sequencing: the tokens after a split are applied to the
message produced by the tokens before it), so a later occurrence of the
same key silently overwrites the earlier one; in particular decoding
`infoReq MTU=1 MTU=2\n` yields `MTU = 2` with no error. -/
theorem duplicate_keys_last_wins :
    (∀ (m : AuthMessage) (ts1 ts2 : List (List Char)),
      processTokens m (ts1 ++ ts2) =
        (processTokens m ts1).andThen fun m2 => processTokens m2 ts2) ∧
      AuthCodec.decode (strToBytes "infoReq MTU=1 MTU=2\n") =
        (.ok { AuthMessage.default with message_type := .InfoReq, mtu := some 2 }, []) :=
  ⟨processTokens_append, by decide⟩

/-- C9: `firstServer` and `realIP` values are parsed as base-16 into a
32-bit value whose four bytes become the IPv4 octets in network
(big-endian) byte order; in particular `connInf firstServer=0A000001\n`
decodes to `10.0.0.1` (and likewise for `realIP`). -/
theorem hex_ip_big_endian :
    (∀ b3 b2 b1 b0 : Nat, b3 < 256 → b2 < 256 → b1 < 256 → b0 < 256 →
      Ipv4Addr.fromU32 (((b3 * 256 + b2) * 256 + b1) * 256 + b0) = ⟨b3, b2, b1, b0⟩) ∧
      AuthCodec.decode (strToBytes "connInf firstServer=0A000001\n") =
        (.ok { AuthMessage.default with
                message_type := .ConnInf
                first_server := some (.v4 ⟨10, 0, 0, 1⟩) }, []) ∧
      AuthCodec.decode (strToBytes "connInf realIP=0A000001\n") =
        (.ok { AuthMessage.default with
                message_type := .ConnInf
                real_ip := some (.v4 ⟨10, 0, 0, 1⟩) }, []) := by
  refine ⟨?_, by decide, by decide⟩
  intro b3 b2 b1 b0 h3 h2 h1 h0
  simp only [Ipv4Addr.fromU32, Ipv4Addr.mk.injEq]
  omega

theorem hex_ip_big_endian_witness :
    Ipv4Addr.fromU32 (((10 * 256 + 0) * 256 + 0) * 256 + 1) = ⟨10, 0, 0, 1⟩ :=
  hex_ip_big_endian.1 10 0 0 1 (by decide) (by decide) (by decide) (by decide)

/-- C10: whenever the buffer holds a complete line, decode removes the line
and its delimiter from the buffer before any validation: the result is
exactly the parse of the line bytes with the buffer advanced past the
newline, so in particular on every fatal decode error returned as a result
the buffer has already moved past the offending line (decode errors are
not atomic with respect to buffer state). -/
theorem decode_consumes_line_before_validation (line rest : List Nat)
    (h : ∀ b ∈ line, b ≠ 10) :
    AuthCodec.decode (line ++ 10 :: rest) = (parseLine line, rest) ∧
      ((parseLine line).isErr = true → (AuthCodec.decode (line ++ 10 :: rest)).2 = rest) := by
  refine ⟨decode_line h, fun _ => ?_⟩
  rw [decode_line h]

theorem decode_consumes_line_before_validation_witness :
    (∀ b ∈ strToBytes "connRsp x", b ≠ 10) ∧
      AuthCodec.decode (strToBytes "connRsp x" ++ 10 :: [65]) =
        (parseLine (strToBytes "connRsp x"), [65]) ∧
      parseLine (strToBytes "connRsp x") = .err "bad key/value pair" :=
  ⟨by decide,
    (decode_consumes_line_before_validation (strToBytes "connRsp x") [65] (by decide)).1,
    by decide⟩

end SunRay

namespace SunRay

theorem splitSep_ne_nil (sep : Char) (l : List Char) : splitSep sep l ≠ [] := by
  cases l with
  | nil => simp [splitSep]
  | cons c cs =>
    simp only [splitSep]
    split
    · simp
    · cases h : splitSep sep cs <;> simp

theorem splitSep_length (sep : Char) (l : List Char) :
    (splitSep sep l).length = l.count sep + 1 := by
  induction l with
  | nil => simp [splitSep]
  | cons c cs ih =>
    simp only [splitSep]
    by_cases hc : c = sep
    · rw [if_pos hc]
      simp only [List.count_cons, List.length_cons, ih]
      simp [hc]
    · rw [if_neg hc]
      cases h : splitSep sep cs with
      | nil => exact absurd h (splitSep_ne_nil sep cs)
      | cons g gs =>
        rw [h] at ih
        have hbc : (c == sep) = false := by simp [hc]
        simp only [List.count_cons, List.length_cons, hbc, Bool.false_eq_true,
          if_false] at ih ⊢
        omega

theorem isErr_not_isAborted (r : DecodeResult) (h : r.isErr = true) :
    r.isAborted = false := by
  cases r <;> simp_all [DecodeResult.isErr, DecodeResult.isAborted]

theorem processTokens_err_bad_token (m : AuthMessage) (ts : List (List Char))
    (h : (processTokens m ts).isErr = true) : ∃ t ∈ ts, t.count '=' ≠ 1 := by
  induction ts generalizing m with
  | nil => simp [processTokens, DecodeResult.isErr] at h
  | cons t ts ih =>
    simp only [processTokens] at h
    have hlen := splitSep_length '=' t
    cases hsp : splitSep '=' t with
    | nil => exact absurd hsp (splitSep_ne_nil '=' t)
    | cons k gs =>
      rw [hsp] at h hlen
      cases gs with
      | nil =>
        refine ⟨t, List.mem_cons_self t ts, ?_⟩
        simp at hlen
        omega
      | cons v gs2 =>
        cases gs2 with
        | nil =>
          dsimp only at h
          cases happ : applyField m ⟨k⟩ v with
          | ok m2 =>
            rw [happ] at h
            obtain ⟨t2, ht2, hc⟩ := ih m2 h
            exact ⟨t2, List.mem_cons_of_mem t ht2, hc⟩
          | aborted e =>
            rw [happ] at h
            simp [DecodeResult.isErr] at h
        | cons w gs3 =>
          refine ⟨t, List.mem_cons_self t ts, ?_⟩
          simp at hlen
          omega

theorem processTokens_bad_token_not_ok (m : AuthMessage) (ts : List (List Char))
    (h : ∃ t ∈ ts, t.count '=' ≠ 1) :
    (processTokens m ts).isErr = true ∨ (processTokens m ts).isAborted = true := by
  induction ts generalizing m with
  | nil => simp at h
  | cons t ts ih =>
    simp only [processTokens]
    have hlen := splitSep_length '=' t
    cases hsp : splitSep '=' t with
    | nil => exact absurd hsp (splitSep_ne_nil '=' t)
    | cons k gs =>
      rw [hsp] at hlen
      cases gs with
      | nil => left; simp [DecodeResult.isErr]
      | cons v gs2 =>
        cases gs2 with
        | nil =>
          dsimp only
          cases happ : applyField m ⟨k⟩ v with
          | ok m2 =>
            obtain ⟨t2, ht2, hc⟩ := h
            rcases List.mem_cons.mp ht2 with rfl | hmem
            · simp at hlen; omega
            · exact ih m2 ⟨t2, hmem, hc⟩
          | aborted e => right; simp [DecodeResult.isAborted]
        | cons w gs3 => left; simp [DecodeResult.isErr]

end SunRay

namespace SunRay

theorem parseLine_err_iff (line : List Nat) :
    (parseLine line).isErr = true ↔
      ((parseLine line).isAborted = false ∧
        (utf8Decode line = none ∨ ∃ cs, utf8Decode line = some cs ∧
          (splitWs cs = [] ∨ ∃ t ∈ (splitWs cs).tail, t.count '=' ≠ 1))) := by
  unfold parseLine
  cases hu : utf8Decode line with
  | none => simp [DecodeResult.isErr, DecodeResult.isAborted]
  | some cs =>
    dsimp only
    cases hs : splitWs cs with
    | nil =>
      simp [DecodeResult.isErr, DecodeResult.isAborted, hs]
    | cons t ts =>
      dsimp only
      constructor
      · intro he
        refine ⟨isErr_not_isAborted _ he, .inr ⟨cs, rfl, .inr ?_⟩⟩
        rw [hs]
        simpa using processTokens_err_bad_token _ ts he
      · rintro ⟨hna, hcase⟩
        rcases hcase with h1 | ⟨cs2, hcs2, hcase2⟩
        · simp at h1
        · obtain rfl : cs = cs2 := by simpa using hcs2
          rw [hs] at hcase2
          rcases hcase2 with h2 | h3
          · simp at h2
          · simp only [List.tail_cons] at h3
            rcases processTokens_bad_token_not_ok _ ts h3 with h4 | h4
            · exact h4
            · rw [h4] at hna
              simp at hna

/-- C6: for a buffered complete line, a decode call returns a fatal decode
error as a result (Rust `Err`, as opposed to an `Ok` message or a panic
from a failed integer parse) in exactly these cases: the line bytes are not
valid UTF-8, the line has zero whitespace-separated tokens, or some field
token does not contain exactly one `=` character. -/
theorem decode_err_characterization (line rest : List Nat)
    (h : ∀ b ∈ line, b ≠ 10) :
    (AuthCodec.decode (line ++ 10 :: rest)).1.isErr = true ↔
      ((AuthCodec.decode (line ++ 10 :: rest)).1.isAborted = false ∧
        (utf8Decode line = none ∨ ∃ cs, utf8Decode line = some cs ∧
          (splitWs cs = [] ∨ ∃ t ∈ (splitWs cs).tail, t.count '=' ≠ 1))) := by
  rw [decode_line h]
  exact parseLine_err_iff line

theorem decode_err_characterization_witness :
    (∀ b ∈ ([255] : List Nat), b ≠ 10) ∧
      ((AuthCodec.decode ([255] ++ 10 :: [])).1.isErr = true ↔
        ((AuthCodec.decode ([255] ++ 10 :: [])).1.isAborted = false ∧
          (utf8Decode [255] = none ∨ ∃ cs, utf8Decode [255] = some cs ∧
            (splitWs cs = [] ∨ ∃ t ∈ (splitWs cs).tail, t.count '=' ≠ 1)))) :=
  ⟨by decide, decode_err_characterization [255] [] (by decide)⟩

end SunRay

namespace SunRay

theorem strToBytes_append (s t : String) :
    strToBytes (s ++ t) = strToBytes s ++ strToBytes t := by
  simp [strToBytes, String.data_append]

/-- C3: the encoder appends nothing (and succeeds) when the message type is
`empty`; otherwise it appends exactly the type's wire string, then
` access=<value>` if set, then ` tokenSeq=<value>` if set, in that fixed
order, terminated by a newline; the output depends on no field other than
the message type, `access` and `tokenSeq`; and encoding never fails. -/
theorem encode_spec :
    (∀ (m : AuthMessage) (buf : List Nat), m.message_type = .Empty →
      AuthCodec.encode m buf = .ok buf) ∧
      (∀ (m : AuthMessage) (buf : List Nat), m.message_type ≠ .Empty →
        AuthCodec.encode m buf =
          .ok (buf ++
            strToBytes (m.message_type.display ++ accessPart m ++ tokenSeqPart m ++ "\n"))) ∧
      (∀ (m1 m2 : AuthMessage) (buf : List Nat), m1.message_type = m2.message_type →
        m1.access = m2.access → m1.token_seq = m2.token_seq →
        AuthCodec.encode m1 buf = AuthCodec.encode m2 buf) ∧
      (∀ (m : AuthMessage) (buf : List Nat), ∃ out, AuthCodec.encode m buf = .ok out) := by
  refine ⟨?_, ?_, ?_, ?_⟩
  · intro m buf h
    simp [AuthCodec.encode, h]
  · intro m buf h
    unfold AuthCodec.encode
    rw [if_neg h]
    cases hacc : m.access <;> cases htok : m.token_seq <;>
      simp [accessPart, tokenSeqPart, hacc, htok, strToBytes_append, strToBytes] <;>
      rfl
  · intro m1 m2 buf h1 h2 h3
    unfold AuthCodec.encode
    rw [h1, h2, h3]
  · intro m buf
    unfold AuthCodec.encode
    split
    · exact ⟨buf, rfl⟩
    · exact ⟨_, rfl⟩

end SunRay

namespace SunRay

theorem encode_spec_witness :
    AuthCodec.encode { AuthMessage.default with message_type := .Empty, mtu := some 9 } [7] = .ok [7] ∧
      AuthCodec.encode { AuthMessage.default with message_type := .ConnRsp, access := some "granted", token_seq := some 7 } [] =
        .ok (strToBytes "connRsp access=granted tokenSeq=7\n") ∧
      AuthCodec.encode { AuthMessage.default with message_type := .ConnRsp, access := some "x", mtu := some 5 } [] =
        AuthCodec.encode { AuthMessage.default with message_type := .ConnRsp, access := some "x" } [] := by
  refine ⟨encode_spec.1 _ [7] rfl, ?_, encode_spec.2.2.1 _ _ [] rfl rfl rfl⟩
  rw [encode_spec.2.1 _ [] (by decide)]
  exact congrArg Except.ok (by decide)

theorem encode_never_fails (m : AuthMessage) (buf : List Nat) :
    ∃ out, AuthCodec.encode m buf = .ok out := by
  unfold AuthCodec.encode
  split
  · exact ⟨buf, rfl⟩
  · exact ⟨_, rfl⟩

/-- C5: on one connection the session is a strict pipeline — for each
successfully decoded request, the handler is invoked, its single result is
awaited, and exactly one encoded frame (possibly zero bytes) is written
before the next request is decoded; hence the requests processed are
exactly the buffered messages in arrival order, and the bytes written are
the in-order concatenation of one response frame per request, so requests
are never processed out of order and responses are never reordered. -/
theorem session_pipeline_order (handler : AuthMessage → AuthMessage)
    (fuel : Nat) (buf : List Nat) :
    sessionRun handler fuel buf =
      (decodeAll fuel buf,
        ((decodeAll fuel buf).map fun m => frameBytes (handler m)).flatten) := by
  induction fuel generalizing buf with
  | zero => simp [sessionRun, decodeAll]
  | succ n ih =>
    simp only [sessionRun, decodeAll]
    rcases hd : AuthCodec.decode buf with ⟨r, rest⟩
    cases r with
    | ok m =>
      dsimp only
      obtain ⟨out, hout⟩ := encode_never_fails (handler m) []
      rw [hout]
      dsimp only
      rw [ih rest]
      simp [frameBytes, hout]
    | incomplete => simp
    | err e => simp
    | aborted e => simp

end SunRay

namespace SunRay

/-! ### Helper lemmas: UTF-8 round trip -/

theorem char_valid_nat (c : Char) :
    c.toNat < 55296 ∨ 57343 < c.toNat ∧ c.toNat < 1114112 := c.valid

theorem utf8DecodeOneChar_encode (c : Char) (rest : List Nat) :
    ∃ b0 bs, utf8EncodeChar c = b0 :: bs ∧
      utf8DecodeOneChar b0 (bs ++ rest) = some (c, rest) := by
  have hv := char_valid_nat c
  have hofn : Char.ofNat c.toNat = c := Char.ofNat_toNat c
  by_cases h1 : c.toNat < 128
  · refine ⟨c.toNat, [], by rw [utf8EncodeChar, if_pos h1], ?_⟩
    rw [List.nil_append, utf8DecodeOneChar.eq_def, if_pos h1, hofn]
  · by_cases h2 : c.toNat < 2048
    · refine ⟨192 + c.toNat / 64, [128 + c.toNat % 64],
        by rw [utf8EncodeChar, if_neg h1, if_pos h2], ?_⟩
      rw [List.cons_append, List.nil_append, utf8DecodeOneChar.eq_def,
        if_neg (by omega), if_neg (by omega), if_pos (by omega)]
      dsimp only
      rw [if_pos (by omega)]
      have hval : (192 + c.toNat / 64 - 192) * 64 + (128 + c.toNat % 64 - 128) =
          c.toNat := by omega
      rw [hval, hofn]
    · by_cases h3 : c.toNat < 65536
      · refine ⟨224 + c.toNat / 4096, [128 + c.toNat / 64 % 64, 128 + c.toNat % 64],
          by rw [utf8EncodeChar, if_neg h1, if_neg h2, if_pos h3], ?_⟩
        rw [List.cons_append, List.cons_append, List.nil_append,
          utf8DecodeOneChar.eq_def, if_neg (by omega), if_neg (by omega),
          if_neg (by omega), if_pos (by omega)]
        dsimp only
        have hcond : (if 224 + c.toNat / 4096 = 224 then 160 else 128) ≤
            128 + c.toNat / 64 % 64 ∧
            128 + c.toNat / 64 % 64 < (if 224 + c.toNat / 4096 = 237 then 160 else 192) ∧
            128 ≤ 128 + c.toNat % 64 ∧ 128 + c.toNat % 64 < 192 := by
          refine ⟨?_, ?_, by omega, by omega⟩
          · split_ifs with hE <;> omega
          · split_ifs with hE <;> omega
        rw [if_pos hcond]
        have hval : (224 + c.toNat / 4096 - 224) * 4096 +
            (128 + c.toNat / 64 % 64 - 128) * 64 + (128 + c.toNat % 64 - 128) =
            c.toNat := by omega
        rw [hval, hofn]
      · refine ⟨240 + c.toNat / 262144,
          [128 + c.toNat / 4096 % 64, 128 + c.toNat / 64 % 64, 128 + c.toNat % 64],
          by rw [utf8EncodeChar, if_neg h1, if_neg h2, if_neg h3], ?_⟩
        rw [List.cons_append, List.cons_append, List.cons_append, List.nil_append,
          utf8DecodeOneChar.eq_def, if_neg (by omega), if_neg (by omega),
          if_neg (by omega), if_neg (by omega), if_pos (by omega)]
        dsimp only
        have hcond : (if 240 + c.toNat / 262144 = 240 then 144 else 128) ≤
            128 + c.toNat / 4096 % 64 ∧
            128 + c.toNat / 4096 % 64 <
              (if 240 + c.toNat / 262144 = 244 then 144 else 192) ∧
            128 ≤ 128 + c.toNat / 64 % 64 ∧ 128 + c.toNat / 64 % 64 < 192 ∧
            128 ≤ 128 + c.toNat % 64 ∧ 128 + c.toNat % 64 < 192 := by
          refine ⟨?_, ?_, by omega, by omega, by omega, by omega⟩
          · split_ifs with hF <;> omega
          · split_ifs with hF <;> omega
        rw [if_pos hcond]
        have hval : (240 + c.toNat / 262144 - 240) * 262144 +
            (128 + c.toNat / 4096 % 64 - 128) * 4096 +
            (128 + c.toNat / 64 % 64 - 128) * 64 + (128 + c.toNat % 64 - 128) =
            c.toNat := by omega
        rw [hval, hofn]

theorem utf8DecodeAux_encode_list (cs : List Char) (fuel : Nat)
    (hf : ((cs.map utf8EncodeChar).flatten).length ≤ fuel) :
    utf8DecodeAux fuel ((cs.map utf8EncodeChar).flatten) = some cs := by
  induction cs generalizing fuel with
  | nil =>
    cases fuel <;> rfl
  | cons c cs ih =>
    obtain ⟨b0, bs, henc, hdec⟩ := utf8DecodeOneChar_encode c ((cs.map utf8EncodeChar).flatten)
    simp only [List.map_cons, List.flatten_cons] at hf ⊢
    rw [henc] at hf ⊢
    simp only [List.cons_append, List.length_cons, List.length_append] at hf ⊢
    cases fuel with
    | zero => omega
    | succ f =>
      rw [utf8DecodeAux, hdec]
      dsimp only
      rw [ih f (by omega)]
      rfl

theorem utf8Decode_strToBytes (s : String) : utf8Decode (strToBytes s) = some s.data := by
  unfold utf8Decode strToBytes
  exact utf8DecodeAux_encode_list s.data _ le_rfl

theorem utf8EncodeChar_no_newline (c : Char) (hc : c ≠ '\n') :
    ∀ b ∈ utf8EncodeChar c, b ≠ 10 := by
  intro b hb
  simp only [utf8EncodeChar] at hb
  split_ifs at hb with h1 h2 h3
  · simp at hb
    subst hb
    intro h10
    refine hc ?_
    rw [← Char.ofNat_toNat c, h10]
  · simp at hb
    rcases hb with hb | hb <;> omega
  · simp at hb
    rcases hb with hb | hb | hb <;> omega
  · simp at hb
    rcases hb with hb | hb | hb | hb <;> omega

theorem strToBytes_no_newline (s : String) (h : ∀ c ∈ s.data, c ≠ '\n') :
    ∀ b ∈ strToBytes s, b ≠ 10 := by
  intro b hb
  simp only [strToBytes, List.mem_flatten, List.mem_map] at hb
  obtain ⟨l, ⟨c, hc, rfl⟩, hbl⟩ := hb
  exact utf8EncodeChar_no_newline c (h c hc) b hbl

end SunRay

namespace SunRay

/-! ### Helper lemmas: decimal formatting round trip -/

theorem digitVal_ofNat (d : Nat) (hd : d < 10) :
    digitVal (Char.ofNat (d + 48)) = some d ∧ (Char.ofNat (d + 48)).toNat = d + 48 := by
  interval_cases d <;> exact ⟨by decide, by decide⟩

theorem natDigitsRevAux_bounds (fuel n : Nat) :
    ∀ c ∈ natDigitsRevAux fuel n, 48 ≤ c.toNat ∧ c.toNat ≤ 57 := by
  induction fuel generalizing n with
  | zero => simp [natDigitsRevAux]
  | succ f ih =>
    cases n with
    | zero => simp [natDigitsRevAux]
    | succ k =>
      intro c hc
      simp only [natDigitsRevAux, show ('0').toNat = 48 from rfl, List.mem_cons] at hc
      rcases hc with rfl | hc
      · have h10 : (k + 1) % 10 < 10 := Nat.mod_lt _ (by omega)
        have := (digitVal_ofNat _ h10).2
        omega
      · exact ih _ c hc

theorem natToString_bounds (n : Nat) :
    ∀ c ∈ (natToString n).data, 48 ≤ c.toNat ∧ c.toNat ≤ 57 := by
  unfold natToString
  split
  · intro c hc
    simp only [show ("0" : String).data = ['0'] from rfl, List.mem_singleton] at hc
    subst hc
    exact ⟨by decide, by decide⟩
  · intro c hc
    simp only [show (String.mk (natDigitsRev n).reverse).data = (natDigitsRev n).reverse
        from rfl, List.mem_reverse] at hc
    exact natDigitsRevAux_bounds n n c hc

theorem parseDigitsAcc_append (dv : Char → Option Nat) (base : Nat)
    (xs ys : List Char) (acc : Nat) :
    parseDigitsAcc dv base (xs ++ ys) acc =
      match parseDigitsAcc dv base xs acc with
      | some a => parseDigitsAcc dv base ys a
      | none => none := by
  induction xs generalizing acc with
  | nil => simp [parseDigitsAcc]
  | cons c cs ih =>
    simp only [List.cons_append, parseDigitsAcc]
    cases hv : dv c with
    | some d =>
      dsimp only
      exact ih _
    | none => rfl

theorem parseDigitsAcc_natDigits (fuel n acc : Nat) (hf : n ≤ fuel) :
    parseDigitsAcc digitVal 10 ((natDigitsRevAux fuel n).reverse) acc =
      some (acc * 10 ^ (natDigitsRevAux fuel n).length + n) := by
  induction fuel generalizing n acc with
  | zero =>
    have hn : n = 0 := by omega
    subst hn
    simp [natDigitsRevAux, parseDigitsAcc]
  | succ f ih =>
    cases n with
    | zero => simp [natDigitsRevAux, parseDigitsAcc]
    | succ k =>
      have hrec : (k + 1) / 10 ≤ f := by omega
      have h10 : (k + 1) % 10 < 10 := Nat.mod_lt _ (by omega)
      simp only [natDigitsRevAux, show ('0').toNat = 48 from rfl, List.reverse_cons,
        List.length_cons]
      rw [parseDigitsAcc_append digitVal 10 _ _ acc, ih _ acc hrec]
      simp only [parseDigitsAcc, (digitVal_ofNat _ h10).1]
      congr 1
      rw [pow_succ, ← mul_assoc]
      generalize acc * 10 ^ (natDigitsRevAux f ((k + 1) / 10)).length = B
      omega

theorem natDigitsRev_ne_nil (n : Nat) (h : n ≠ 0) : natDigitsRev n ≠ [] := by
  unfold natDigitsRev
  cases n with
  | zero => exact absurd rfl h
  | succ k => simp [natDigitsRevAux]

theorem parseU32_natToString (n : Nat) (h : n < 2 ^ 32) :
    parseU32 (natToString n).data = some n := by
  by_cases h0 : n = 0
  · subst h0; decide
  · unfold natToString
    rw [if_neg h0]
    show parseU32 (natDigitsRev n).reverse = some n
    obtain ⟨c, cs, hcons⟩ := List.exists_cons_of_ne_nil
      (by simpa using natDigitsRev_ne_nil n h0 : (natDigitsRev n).reverse ≠ [])
    have hcb : 48 ≤ c.toNat ∧ c.toNat ≤ 57 :=
      natDigitsRevAux_bounds n n c
        (List.mem_reverse.mp
          (by rw [show (natDigitsRevAux n n).reverse = c :: cs from hcons]
              exact List.mem_cons_self c cs))
    have hplus : ¬((c :: cs).head? = some '+') := by
      simp only [List.head?_cons, Option.some.injEq]
      intro hq
      subst hq
      revert hcb
      decide
    have hparse := parseDigitsAcc_natDigits n n 0 le_rfl
    unfold parseU32 parseUInt
    rw [hcons]
    dsimp only
    rw [if_neg hplus]
    rw [show (c :: cs).isEmpty = false from rfl]
    simp only [Bool.false_eq_true, if_false]
    rw [← hcons]
    unfold natDigitsRev
    rw [hparse]
    simp only [Nat.zero_mul, Nat.zero_add]
    rw [if_pos h]

/-! ### Helper lemmas: tokenization -/

theorem splitWsAux_no_ws (t rest acc : List Char) (h : ∀ c ∈ t, isWs c = false) :
    splitWsAux (t ++ rest) acc = splitWsAux rest (t.reverse ++ acc) := by
  induction t generalizing acc with
  | nil => simp
  | cons c cs ih =>
    simp only [List.cons_append, splitWsAux, List.append_eq]
    rw [h c (List.mem_cons_self c cs)]
    simp only [Bool.false_eq_true, if_false]
    rw [ih _ (fun x hx => h x (List.mem_cons_of_mem c hx))]
    simp [List.append_assoc]

theorem splitWs_single (t : List Char) (hne : t ≠ []) (h : ∀ c ∈ t, isWs c = false) :
    splitWs t = [t] := by
  unfold splitWs
  have haux := splitWsAux_no_ws t [] [] h
  rw [List.append_nil] at haux
  rw [haux]
  simp only [splitWsAux, List.append_nil]
  have hrne : t.reverse.isEmpty = false := by
    simp [List.isEmpty_iff, hne]
  rw [hrne]
  simp

theorem splitWs_token_cons (t rest : List Char) (hne : t ≠ [])
    (h : ∀ c ∈ t, isWs c = false) :
    splitWs (t ++ ' ' :: rest) = t :: splitWs rest := by
  unfold splitWs
  rw [splitWsAux_no_ws t (' ' :: rest) [] h]
  simp only [splitWsAux, List.append_nil]
  rw [show isWs ' ' = true by decide]
  have hrne : t.reverse.isEmpty = false := by
    simp [List.isEmpty_iff, hne]
  rw [if_pos rfl, hrne]
  simp

theorem splitSep_no_sep (sep : Char) (v : List Char) (h : sep ∉ v) :
    splitSep sep v = [v] := by
  induction v with
  | nil => rfl
  | cons c cs ih =>
    simp only [splitSep]
    rw [if_neg (fun he => h (by rw [← he]; exact List.mem_cons_self c cs))]
    rw [ih (fun hm => h (List.mem_cons_of_mem c hm))]

theorem splitSep_key_value (k v : List Char) (hk : '=' ∉ k) (hv : '=' ∉ v) :
    splitSep '=' (k ++ '=' :: v) = [k, v] := by
  induction k with
  | nil =>
    simp only [List.nil_append, splitSep]
    rw [if_pos trivial, splitSep_no_sep '=' v hv]
  | cons c cs ih =>
    simp only [List.cons_append, splitSep]
    have hc : ¬(c = '=') := fun he => hk (by rw [← he]; exact List.mem_cons_self c cs)
    simp only [List.append_eq]
    rw [if_neg hc, ih (fun hm => hk (List.mem_cons_of_mem c hm))]

/-! ### Helper lemmas: character classes -/

theorem digit_char_classes (c : Char) (h1 : 48 ≤ c.toNat) (h2 : c.toNat ≤ 57) :
    isWs c = false ∧ c ≠ '=' ∧ c ≠ '\n' := by
  refine ⟨?_, ?_, ?_⟩
  · simp only [isWs, wsCodes, decide_eq_false_iff_not]
    intro hm
    simp only [List.mem_cons, List.not_mem_nil, or_false] at hm
    omega
  · intro he
    subst he
    exact absurd h2 (by decide)
  · intro he
    subst he
    exact absurd h1 (by decide)

theorem not_ws_ne_newline (c : Char) (h : isWs c = false) : c ≠ '\n' := by
  intro he
  subst he
  revert h
  decide

theorem display_good (t : AuthMessageType) :
    (AuthMessageType.display t).data ≠ [] ∧
      ∀ c ∈ (AuthMessageType.display t).data, isWs c = false ∧ c ≠ '\n' := by
  cases t <;> exact ⟨by decide, by decide⟩

theorem tokenSeq_chars : ∀ c ∈ ("tokenSeq").data, isWs c = false ∧ c ≠ '\n' := by
  decide

theorem access_chars : ∀ c ∈ ("access").data, isWs c = false ∧ c ≠ '\n' := by
  decide

theorem fromStr_display (t : AuthMessageType) (h : t ≠ .Empty) :
    AuthMessageType.fromStr ⟨(AuthMessageType.display t).data⟩ = t := by
  cases t <;> first | rfl | exact absurd rfl h

theorem natToString_char_classes (w : Nat) :
    ∀ c ∈ (natToString w).data, isWs c = false ∧ c ≠ '=' ∧ c ≠ '\n' := by
  intro c hc
  have hb := natToString_bounds w c hc
  exact digit_char_classes c hb.1 hb.2

theorem applyField_access_mk (m : AuthMessage) (v : List Char) :
    applyField m ⟨"access".data⟩ v = .ok m := rfl

theorem applyField_tokenSeq_mk (m : AuthMessage) (v : List Char) :
    applyField m ⟨"tokenSeq".data⟩ v =
      match parseU32 v with
      | some n => .ok { m with token_seq := some n }
      | none => .aborted "not an integer" := rfl

theorem processTokens_access_cons (m : AuthMessage) (a : List Char)
    (ha : '=' ∉ a) (ts : List (List Char)) :
    processTokens m (("access".data ++ '=' :: a) :: ts) = processTokens m ts := by
  simp only [processTokens]
  rw [splitSep_key_value _ _ (by decide) ha]
  dsimp only
  rw [applyField_access_mk]

theorem natToString_no_eq (w : Nat) : '=' ∉ (natToString w).data := by
  intro hm
  exact absurd rfl ((natToString_char_classes w '=' hm).2.1)

theorem processTokens_tokenSeq_cons (m : AuthMessage) (w : Nat) (hw : w < 2 ^ 32)
    (ts : List (List Char)) :
    processTokens m (("tokenSeq".data ++ '=' :: (natToString w).data) :: ts) =
      processTokens { m with token_seq := some w } ts := by
  simp only [processTokens]
  rw [splitSep_key_value _ _ (by decide) (natToString_no_eq w)]
  dsimp only
  rw [applyField_tokenSeq_mk, parseU32_natToString w hw]

/-! ### C1: encode/decode round trip -/

/-- C1 (amended): for every message whose type is a response (non-`Empty`)
type and whose only set fields are `access` and `tokenSeq` — with the
`access` value free of whitespace and `=` characters and `tokenSeq` a
32-bit value — encoding and then decoding the produced line yields a
message with the same message type, the same `tokenSeq`, and every other
field unset **including `access`**: the decoder's field table has no
`access` arm, so the `access` key is silently ignored and comes back
unset rather than being reproduced. -/
theorem encode_decode_roundtrip (t : AuthMessageType) (acc : Option String)
    (tok : Option Nat) (ht : t ≠ .Empty)
    (hacc : ∀ a, acc = some a → ∀ c ∈ a.data, isWs c = false ∧ c ≠ '=')
    (htok : ∀ w, tok = some w → w < 2 ^ 32) :
    ∃ bytes,
      AuthCodec.encode
        { AuthMessage.default with message_type := t, access := acc, token_seq := tok }
        [] = .ok bytes ∧
      AuthCodec.decode bytes =
        (.ok { AuthMessage.default with message_type := t, token_seq := tok }, []) := by
  have hddne := (display_good t).1
  have hddws : ∀ c ∈ (AuthMessageType.display t).data, isWs c = false :=
    fun c hc => ((display_good t).2 c hc).1
  have hddnl : ∀ c ∈ (AuthMessageType.display t).data, c ≠ '\n' :=
    fun c hc => ((display_good t).2 c hc).2
  rcases acc with _ | a <;> rcases tok with _ | w
  · -- access unset, tokenSeq unset
    refine ⟨strToBytes t.display ++ [10], ?_, ?_⟩
    · unfold AuthCodec.encode
      dsimp only
      rw [if_neg ht, List.nil_append]
    · have hnonl : ∀ b ∈ strToBytes t.display, b ≠ 10 :=
        strToBytes_no_newline _ hddnl
      rw [show strToBytes t.display ++ [10] = strToBytes t.display ++ 10 :: [] from rfl,
        decode_line hnonl]
      simp only [Prod.mk.injEq]
      refine ⟨?_, trivial⟩
      unfold parseLine
      rw [utf8Decode_strToBytes]
      dsimp only
      rw [splitWs_single _ hddne hddws]
      dsimp only
      simp only [processTokens]
      rw [fromStr_display t ht]
      rfl
  · -- access unset, tokenSeq set
    have hw : w < 2 ^ 32 := htok w rfl
    have hline : (t.display ++ " tokenSeq=" ++ natToString w).data =
        t.display.data ++ ' ' :: ("tokenSeq".data ++ '=' :: (natToString w).data) := by
      simp [String.data_append, List.append_assoc]
    have hnl : ∀ c ∈ (t.display ++ " tokenSeq=" ++ natToString w).data, c ≠ '\n' := by
      rw [hline]
      intro c hc
      rcases List.mem_append.mp hc with hc1 | hc2
      · exact hddnl c hc1
      · rcases List.mem_cons.mp hc2 with rfl | hc3
        · decide
        · rcases List.mem_append.mp hc3 with hc4 | hc5
          · intro he
            subst he
            exact absurd hc4 (by decide)
          · rcases List.mem_cons.mp hc5 with rfl | hc6
            · decide
            · exact (natToString_char_classes w c hc6).2.2
    refine ⟨strToBytes (t.display ++ " tokenSeq=" ++ natToString w) ++ [10], ?_, ?_⟩
    · unfold AuthCodec.encode
      dsimp only
      rw [if_neg ht, List.nil_append]
    · have hnonl : ∀ b ∈ strToBytes (t.display ++ " tokenSeq=" ++ natToString w), b ≠ 10 :=
        strToBytes_no_newline _ hnl
      rw [show strToBytes (t.display ++ " tokenSeq=" ++ natToString w) ++ [10] =
          strToBytes (t.display ++ " tokenSeq=" ++ natToString w) ++ 10 :: [] from rfl,
        decode_line hnonl]
      simp only [Prod.mk.injEq]
      refine ⟨?_, trivial⟩
      unfold parseLine
      rw [utf8Decode_strToBytes]
      dsimp only
      rw [hline]
      rw [splitWs_token_cons _ _ hddne hddws]
      rw [splitWs_single _ (by simp) ?hws2]
      case hws2 =>
        intro c hc
        rcases List.mem_append.mp hc with hc1 | hc2
        · exact (tokenSeq_chars c hc1).1
        · rcases List.mem_cons.mp hc2 with rfl | hc3
          · decide
          · exact (natToString_char_classes w c hc3).1
      dsimp only
      rw [processTokens_tokenSeq_cons _ w hw []]
      simp only [processTokens]
      rw [fromStr_display t ht]
  · -- access set, tokenSeq unset
    have ha := hacc a rfl
    have hline : (t.display ++ " access=" ++ a).data =
        t.display.data ++ ' ' :: ("access".data ++ '=' :: a.data) := by
      simp [String.data_append, List.append_assoc]
    have hnl : ∀ c ∈ (t.display ++ " access=" ++ a).data, c ≠ '\n' := by
      rw [hline]
      intro c hc
      rcases List.mem_append.mp hc with hc1 | hc2
      · exact hddnl c hc1
      · rcases List.mem_cons.mp hc2 with rfl | hc3
        · decide
        · rcases List.mem_append.mp hc3 with hc4 | hc5
          · intro he
            subst he
            exact absurd hc4 (by decide)
          · rcases List.mem_cons.mp hc5 with rfl | hc6
            · decide
            · exact not_ws_ne_newline c (ha c hc6).1
    refine ⟨strToBytes (t.display ++ " access=" ++ a) ++ [10], ?_, ?_⟩
    · unfold AuthCodec.encode
      dsimp only
      rw [if_neg ht, List.nil_append]
    · have hnonl : ∀ b ∈ strToBytes (t.display ++ " access=" ++ a), b ≠ 10 :=
        strToBytes_no_newline _ hnl
      rw [show strToBytes (t.display ++ " access=" ++ a) ++ [10] =
          strToBytes (t.display ++ " access=" ++ a) ++ 10 :: [] from rfl,
        decode_line hnonl]
      simp only [Prod.mk.injEq]
      refine ⟨?_, trivial⟩
      unfold parseLine
      rw [utf8Decode_strToBytes]
      dsimp only
      rw [hline]
      rw [splitWs_token_cons _ _ hddne hddws]
      rw [splitWs_single _ (by simp) ?hws3]
      case hws3 =>
        intro c hc
        rcases List.mem_append.mp hc with hc1 | hc2
        · exact (access_chars c hc1).1
        · rcases List.mem_cons.mp hc2 with rfl | hc3
          · decide
          · exact (ha c hc3).1
      dsimp only
      rw [processTokens_access_cons _ _ (fun hm => absurd rfl (ha '=' hm).2) []]
      simp only [processTokens]
      rw [fromStr_display t ht]
      rfl
  · -- access set, tokenSeq set
    have ha := hacc a rfl
    have hw : w < 2 ^ 32 := htok w rfl
    have hline : (t.display ++ " access=" ++ a ++ " tokenSeq=" ++ natToString w).data =
        t.display.data ++ ' ' ::
          (("access".data ++ '=' :: a.data) ++ ' ' ::
            ("tokenSeq".data ++ '=' :: (natToString w).data)) := by
      simp [String.data_append, List.append_assoc]
    have hnl : ∀ c ∈ (t.display ++ " access=" ++ a ++ " tokenSeq=" ++ natToString w).data,
        c ≠ '\n' := by
      rw [hline]
      intro c hc
      rcases List.mem_append.mp hc with hc1 | hc2
      · exact hddnl c hc1
      · rcases List.mem_cons.mp hc2 with rfl | hc3
        · decide
        · rcases List.mem_append.mp hc3 with hc4 | hc5
          · rcases List.mem_append.mp hc4 with hc6 | hc7
            · intro he
              subst he
              exact absurd hc6 (by decide)
            · rcases List.mem_cons.mp hc7 with rfl | hc8
              · decide
              · exact not_ws_ne_newline c (ha c hc8).1
          · rcases List.mem_cons.mp hc5 with rfl | hc6
            · decide
            · rcases List.mem_append.mp hc6 with hc7 | hc8
              · intro he
                subst he
                exact absurd hc7 (by decide)
              · rcases List.mem_cons.mp hc8 with rfl | hc9
                · decide
                · exact (natToString_char_classes w c hc9).2.2
    refine ⟨strToBytes (t.display ++ " access=" ++ a ++ " tokenSeq=" ++ natToString w) ++ [10],
      ?_, ?_⟩
    · unfold AuthCodec.encode
      dsimp only
      rw [if_neg ht, List.nil_append]
    · have hnonl : ∀ b ∈ strToBytes (t.display ++ " access=" ++ a ++ " tokenSeq=" ++
          natToString w), b ≠ 10 := strToBytes_no_newline _ hnl
      rw [show strToBytes (t.display ++ " access=" ++ a ++ " tokenSeq=" ++ natToString w) ++
          [10] = strToBytes (t.display ++ " access=" ++ a ++ " tokenSeq=" ++ natToString w) ++
          10 :: [] from rfl,
        decode_line hnonl]
      simp only [Prod.mk.injEq]
      refine ⟨?_, trivial⟩
      unfold parseLine
      rw [utf8Decode_strToBytes]
      dsimp only
      rw [hline]
      rw [splitWs_token_cons _ _ hddne hddws]
      rw [splitWs_token_cons _ _ (by simp) ?hacctok]
      case hacctok =>
        intro c hc
        rcases List.mem_append.mp hc with hc1 | hc2
        · exact (access_chars c hc1).1
        · rcases List.mem_cons.mp hc2 with rfl | hc3
          · decide
          · exact (ha c hc3).1
      rw [splitWs_single _ (by simp) ?htoktok]
      case htoktok =>
        intro c hc
        rcases List.mem_append.mp hc with hc1 | hc2
        · exact (tokenSeq_chars c hc1).1
        · rcases List.mem_cons.mp hc2 with rfl | hc3
          · decide
          · exact (natToString_char_classes w c hc3).1
      dsimp only
      rw [processTokens_access_cons _ _ (fun hm => absurd rfl (ha '=' hm).2) _]
      rw [processTokens_tokenSeq_cons _ w hw []]
      simp only [processTokens]
      rw [fromStr_display t ht]

/-- C1 counterexample: encode the response message `connRsp` with
`access = "granted"` and `tokenSeq = 7`, then decode the produced line: the
message type and `tokenSeq` come back, but `access` does NOT — the decoded
message has `access` unset, because the decoder's `match key` table has no
`"access"` arm — so round-tripping does not reproduce the access field and
the claim as stated fails at this input. -/
theorem roundtrip_access_dropped :
    frameBytes { AuthMessage.default with message_type := .ConnRsp, access := some "granted", token_seq := some 7 } =
      strToBytes "connRsp access=granted tokenSeq=7\n" ∧
      AuthCodec.decode (strToBytes "connRsp access=granted tokenSeq=7\n") =
        (.ok { AuthMessage.default with message_type := .ConnRsp, token_seq := some 7 }, []) ∧
      ({ AuthMessage.default with message_type := .ConnRsp, token_seq := some 7 } : AuthMessage).access = none ∧
      (AuthCodec.decode (strToBytes "connRsp access=granted tokenSeq=7\n")).1 ≠
        .ok { AuthMessage.default with message_type := .ConnRsp, access := some "granted", token_seq := some 7 } := by
  refine ⟨by decide, by decide, by decide, by decide⟩

theorem encode_decode_roundtrip_witness :
    ∃ bytes,
      AuthCodec.encode
        { AuthMessage.default with message_type := .ConnRsp, access := some "granted", token_seq := some 7 }
        [] = .ok bytes ∧
      AuthCodec.decode bytes =
        (.ok { AuthMessage.default with message_type := .ConnRsp, token_seq := some 7 }, []) :=
  encode_decode_roundtrip .ConnRsp (some "granted") (some 7) (by decide)
    (fun a ha => by injection ha with h; subst h; decide)
    (fun w hw => by injection hw with h; subst h; decide)

end SunRay
